import Mathlib

/-!
Verification of the execution core of the pennylane-forest quantum-device
adapter (`pennylane_forest/qc.py` and `pennylane_forest/qvm.py`).

The development shallowly embeds the parts of the source the claims are
about:

* the tensor-contraction engine `QuantumComputerDevice.mat_vec_product`
  (numpy `reshape` / `tensordot` / `argsort` / `transpose` pipeline),
  modelled over an arbitrary commutative ring;
* the parametric program builder
  `QuantumComputerDevice.apply_parametric_operations` together with the
  parameter binding maps `_parameter_map` / `_parameter_reference_map`;
* the compilation cache driven by `generate_samples`
  (`_compiled_program_dict`, keyed by the circuit hash);
* `extract_samples` and the `QVMDevice.__init__` shot check.

Python dictionaries are modelled as association lists with
insertion-order-preserving overwrite (`dictInsert`), mutation of `self`
is modelled by explicit state passing (so state survives a raised
exception, as it does in Python), and raised exceptions are modelled
with `Except`.
-/

/-! ### Multi-index bookkeeping for numpy reshape / transpose / tensordot

A numpy array of shape `[2] * n` (C order, as produced by
`np.reshape(vec, [2] * num_wires)` in `mat_vec_product`) stores the
element with multi-index `(b 0, ..., b (n-1))` at flat position
`sum_i (b i) * 2 ^ (n - 1 - i)`: axis 0 is the most significant bit.
`flatIdx` and `bitIdx` are the two directions of that correspondence. -/

/-- Flat (row-major) position of the multi-index `b` in an `n`-axis array of
shape `[2] * n`; axis `0` is the most significant bit. -/
def flatIdx (n : Nat) (b : Nat → Bool) : Nat :=
  ∑ i ∈ Finset.range n, if b i then 2 ^ (n - 1 - i) else 0

/-- Bit of the flat position `m` along axis `i` of an `n`-axis array of shape
`[2] * n` (inverse of `flatIdx`). -/
def bitIdx (n m i : Nat) : Bool :=
  decide (m / 2 ^ (n - 1 - i) % 2 = 1)

/-- Model of `np.argsort` applied to a 1-D integer array: the list of
positions that sorts the array by value (a stable sort of the positions,
comparing the values found at each position). -/
def argsort (p : List Nat) : List Nat :=
  List.insertionSort (fun i j => p.getD i 0 ≤ p.getD j 0) (List.range p.length)

/-- Model of `np.transpose(T, axes)` on an array all of whose axes have
length 2, with the array represented as a function from multi-indices to
entries: axis `axes[j]` of `T` becomes axis `j` of the result, so the
entry of `T` along its own axis `a` is read off at position `axes.indexOf a`
of the result's multi-index. -/
def npTranspose {α : Type} (axes : List Nat) (T : (Nat → Bool) → α) :
    (Nat → Bool) → α :=
  fun x => T (fun a => x (axes.indexOf a))

/-- A numpy 2-D array as consumed by `mat_vec_product`: a shape together
with the entries (`entry i j` is only meaningful for `i < rows`,
`j < cols`). -/
structure NpMatrix (R : Type) where
  rows : Nat
  cols : Nat
  entry : Nat → Nat → R

variable {R : Type} [CommRing R]

/-- Embedding of `QuantumComputerDevice.mat_vec_product`
(`pennylane_forest/qc.py`, lines 311-383) over a commutative ring `R`
(the source works over complex floats).

`n` is `self.num_wires`; `vec` is the length-`2 ^ n` state vector as a
function from flat indices to amplitudes; `device_wire_labels` are the
target qubits.  Following the source:

* the shape check raises `ValueError` with the message naming the
  expected shape (modelled with `Except.error`);
* `mat` is reshaped to `[2] * (2 * num_wires)` — ket axes first, then bra
  axes (`matT`), and `vec` to `[2] * n` (`vecT`);
* `np.tensordot(mat, vec, axes)` contracts the bra axes of the matrix
  against the state axes listed in `device_wire_labels`; the result has
  the matrix's free (ket) axes first, followed by the state's
  uncontracted axes in ascending position order, and is represented here
  directly as a function of its rank-`n` multi-index (`tdot`);
* the permutation `device_wire_labels ++ unused_idxs` is inverted with
  `np.argsort` and applied with `np.transpose`;
* the result is flattened back to a length-`2 ^ n` vector. -/
def mat_vec_product (n : Nat) (mat : NpMatrix R) (vec : Nat → R)
    (device_wire_labels : List Nat) : Except String (Nat → R) :=
  let num_wires := device_wire_labels.length
  if mat.rows ≠ 2 ^ num_wires ∨ mat.cols ≠ 2 ^ num_wires then
    .error s!"Please specify a {2 ^ num_wires} x {2 ^ num_wires} matrix for {num_wires} wires."
  else
    let matT : (Nat → Bool) → R := fun μ =>
      mat.entry (flatIdx num_wires μ) (flatIdx num_wires (fun i => μ (num_wires + i)))
    let vecT : (Nat → Bool) → R := fun ν => vec (flatIdx n ν)
    let unused_idxs := (List.range n).filter (fun idx => decide (idx ∉ device_wire_labels))
    let tdot : (Nat → Bool) → R := fun ν =>
      ∑ r ∈ Finset.range (2 ^ num_wires),
        matT (fun a => if a < num_wires then ν a else bitIdx num_wires r (a - num_wires)) *
          vecT (fun q =>
            if q ∈ device_wire_labels then bitIdx num_wires r (device_wire_labels.indexOf q)
            else ν (num_wires + unused_idxs.indexOf q))
    let perm := device_wire_labels ++ unused_idxs
    let inv_perm := argsort perm
    let state_multi_index := npTranspose inv_perm tdot
    .ok (fun m => state_multi_index (fun i => bitIdx n m i))

/-- First `len` entries of a `mat_vec_product` result (`none` when the call
raised), used to state concrete test vectors. -/
def resultList (r : Except String (Nat → R)) (len : Nat) : Option (List R) :=
  match r with
  | .ok f => some ((List.range len).map f)
  | .error _ => none

/-- The row index selected by a state's flat index `m` on the target
qubits: the bits of `m` at the positions listed in `wls`, reassembled in
list order.  Used to characterise the contraction pipeline. -/
def subIdx (n : Nat) (wls : List Nat) (m : Nat) : Nat :=
  flatIdx wls.length (fun i => bitIdx n m (wls.getD i 0))

/-- The flat index obtained from `m` by overwriting its bits at the target
positions `wls` with the bits of `r` (in list order) and keeping every
other bit.  Used to characterise the contraction pipeline. -/
def overrideIdx (n : Nat) (wls : List Nat) (m r : Nat) : Nat :=
  flatIdx n (fun q =>
    if q ∈ wls then bitIdx wls.length r (wls.indexOf q) else bitIdx n m q)

/-! ### Program builder (`apply_parametric_operations`) -/

/-- A PennyLane operation parameter as seen by `apply_parametric_operations`.
`pid` models `str(id(param))`, the Python object identity of the parameter
rendered as the decimal string the source embeds in the symbolic parameter
name: distinct live objects have distinct `id`s and therefore distinct
strings, while occurrences of one object share it.  `requires_grad` models
`getattr(param, "requires_grad", False)` and `value` models
`param.unwrap()`. -/
structure Param where
  pid : String
  requires_grad : Bool
  value : Int
deriving DecidableEq

/-- A PennyLane operation: its name, its parameters (`operation.data`) and
its wires. -/
structure Operation where
  name : String
  data : List Param
  wires : List Nat
deriving DecidableEq

/-- A pyQuil memory reference, as returned by
`self.prog.declare(parameter_string, "REAL")` (qc.py line 242). -/
structure MemoryReference where
  name : String
deriving DecidableEq

/-- A parameter slot of an emitted pyQuil gate: either the literal numeric
value or a declared memory reference (qc.py lines 250-252). -/
inductive PQParam where
  | lit (v : Int)
  | ref (r : MemoryReference)
deriving DecidableEq

/-- An emitted gate instruction,
`self._operation_map[operation.name](*par, *device_wires.labels)`
(qc.py line 254). -/
structure Instr where
  name : String
  params : List PQParam
  qubits : List Nat
deriving DecidableEq

/-- Errors raised while building a parametric program: the `DeviceError`
for a state preparation applied after other operations (qc.py lines
225-229), and the `KeyError` raised by the `self._operation_map[...]`
lookup when the operation name is unsupported (qc.py line 254); both are
named following the specification's error taxonomy. -/
inductive BuildError where
  | statePreparationOrder (opName : String)
  | unsupportedOperation (opName : String)
deriving DecidableEq

/-- The parameter binding table of the device: `_parameter_map`
(symbol name to current numeric value, stored as the singleton list
`[param.unwrap()]`, qc.py line 246) and `_parameter_reference_map`
(symbol name to declared memory reference, qc.py lines 239-243). -/
structure BuildState where
  parameter_map : List (String × List Int)
  parameter_reference_map : List (String × MemoryReference)
deriving DecidableEq

/-- Python `dict` assignment `d[k] = v` on an insertion-ordered association
list: overwrite in place when the key is present, append otherwise. -/
def dictInsert {κ α : Type} [DecidableEq κ] : List (κ × α) → κ → α → List (κ × α)
  | [], k, v => [(k, v)]
  | (k', v') :: rest, k, v =>
    if k' = k then (k, v) :: rest else (k', v') :: dictInsert rest k v

/-- Predicate for the state-preparation operation classes rejected after
position 0 (qc.py line 225). -/
def isStatePrep (op : Operation) : Prop :=
  op.name = "QubitStateVector" ∨ op.name = "BasisState"

instance (op : Operation) : Decidable (isStatePrep op) :=
  inferInstanceAs (Decidable (op.name = "QubitStateVector" ∨ op.name = "BasisState"))

/-- Condition under which the builder replaces a parameter by a symbolic
handle, `getattr(param, "requires_grad", False) and operation.name !=
"BasisState"` (qc.py line 234): differentiable and not carried by a
`BasisState` operation. -/
def handledParam (opName : String) (p : Param) : Prop :=
  p.requires_grad = true ∧ opName ≠ "BasisState"

instance (opName : String) (p : Param) : Decidable (handledParam opName p) :=
  inferInstanceAs (Decidable (p.requires_grad = true ∧ opName ≠ "BasisState"))

/-- Body of the parameter loop `for param in operation.data` of
`apply_parametric_operations` (qc.py lines 233-252): a differentiable
parameter of a non-`BasisState` operation is replaced by its memory
reference, creating the reference on first sight and (re)binding the
numeric value; every other parameter is passed through literally. -/
def processParam (opName : String) (st : BuildState) (param : Param) :
    BuildState × PQParam :=
  if handledParam opName param then
    let parameter_string := "theta" ++ param.pid
    let refmap :=
      if (st.parameter_reference_map.lookup parameter_string).isSome then
        st.parameter_reference_map
      else
        dictInsert st.parameter_reference_map parameter_string ⟨parameter_string⟩
    let pmap := dictInsert st.parameter_map parameter_string [param.value]
    (⟨pmap, refmap⟩, .ref ((refmap.lookup parameter_string).getD ⟨parameter_string⟩))
  else
    (st, .lit param.value)

/-- The parameter loop of `apply_parametric_operations`, accumulating the
`par` list in order. -/
def processParams (opName : String) : BuildState → List Param → BuildState × List PQParam
  | st, [] => (st, [])
  | st, p :: rest =>
    let r1 := processParam opName st p
    let r2 := processParams opName r1.1 rest
    (r2.1, r1.2 :: r2.2)

/-- One iteration of the loop `for i, operation in enumerate(operations)`
(qc.py lines 221-254): map the wires, reject a state preparation at a
position other than the first, process the parameters, then emit the
instruction — the `self._operation_map[operation.name]` lookup fails for a
name outside the supported table. -/
def applyOperation (supported : List String) (wiring : Nat → Nat) (i : Nat)
    (operation : Operation) (st : BuildState) : BuildState × Except BuildError Instr :=
  let device_wires := operation.wires.map wiring
  if 0 < i ∧ isStatePrep operation then
    (st, .error (.statePreparationOrder operation.name))
  else
    let stPar := processParams operation.name st operation.data
    if operation.name ∈ supported then
      (stPar.1, .ok ⟨operation.name, stPar.2, device_wires⟩)
    else
      (stPar.1, .error (.unsupportedOperation operation.name))

/-- Recursion over the operation list, threading the binding table exactly
as the Python loop mutates `self`: the table state survives a raised
exception. -/
def applyParametricAux (supported : List String) (wiring : Nat → Nat) :
    Nat → List Operation → BuildState → BuildState × Except BuildError (List Instr)
  | _, [], st => (st, .ok [])
  | i, op :: rest, st =>
    let r := applyOperation supported wiring i op st
    match r.2 with
    | .error e => (r.1, .error e)
    | .ok instr =>
      let r2 := applyParametricAux supported wiring (i + 1) rest r.1
      match r2.2 with
      | .error e => (r2.1, .error e)
      | .ok instrs => (r2.1, .ok (instr :: instrs))

/-- Embedding of `QuantumComputerDevice.apply_parametric_operations`
(qc.py lines 210-256).  `supported` is the key set of the device's
`_operation_map`, `wiring` is `self.map_wires`, and `st` is the binding
table carried on `self`.  Returns the final table together with either the
emitted program or the first error raised. -/
def apply_parametric_operations (supported : List String) (wiring : Nat → Nat)
    (operations : List Operation) (st : BuildState) :
    BuildState × Except BuildError (List Instr) :=
  applyParametricAux supported wiring 0 operations st

/-- The symbolic name and memory reference allocated for the parameter
object whose identity string is `pid`:
`parameter_string = "theta" + str(id(param))` (qc.py line 237). -/
def thetaRef (pid : String) : MemoryReference :=
  ⟨"theta" ++ pid⟩

deriving instance DecidableEq for Except

/-- The parameter slot the builder emits for one source parameter: its
memory reference when handled, its literal value otherwise. -/
def paramSpec (opName : String) (p : Param) : PQParam :=
  if handledParam opName p then .ref (thetaRef p.pid) else .lit p.value

/-- The instruction the builder emits for one supported operation. -/
def instrSpec (wiring : Nat → Nat) (op : Operation) : Instr :=
  ⟨op.name, op.data.map (paramSpec op.name), op.wires.map wiring⟩

/-- The binding table as accumulated by the parameter loops of the builder
over the listed operations, disregarding emission and failure. -/
def buildTableFold (st : BuildState) (l : List Operation) : BuildState :=
  l.foldl (fun s op => (processParams op.name s op.data).1) st

/-- No parameter of any listed operation meets the handle-substitution
condition. -/
def noHandledParams (l : List Operation) : Prop :=
  ∀ op ∈ l, ∀ p ∈ op.data, ¬ handledParam op.name p

/-- Well-formedness of the reference map: every stored reference is the
declared region named by its own key.  The builder only ever inserts
`(parameter_string, declare(parameter_string))` pairs, so this holds of
every state it produces, and trivially of the empty table. -/
def RefMapWF (st : BuildState) : Prop :=
  ∀ s r, st.parameter_reference_map.lookup s = some r → r = ⟨s⟩

/-! ### Compilation cache and execution (`generate_samples`) -/

/-- A pyQuil program as `generate_samples` interacts with it: an opaque
structural body (built by `apply`) plus the classical memory regions
written by `write_memory`. -/
structure PyProgram where
  code : Nat
  memory : List (String × List Int)
deriving DecidableEq

/-- The externally observable actions of `generate_samples`: pushing a
bound parameter value into program memory (`self.prog.write_memory`),
invoking the external compiler (`self.qc.compile`, tagged with the
`circuit_hash` property current at the call), and running
(`self.qc.run`). -/
inductive Ev where
  | write (region : String) (value : List Int)
  | compile (hash : Option Nat)
  | run
deriving DecidableEq

/-- The external machine `self.qc`: its name (used for the `"pyqvm" in
self.qc.name` test) and the opaque external compiler, producing an opaque
compiled artifact. -/
structure QuantumComputer where
  name : String
  compile : PyProgram → Nat

/-- Python `needle in hay` on strings. -/
def strContainsSubstr (hay needle : String) : Bool :=
  (List.range (hay.data.length + 1)).any fun i => needle.data.isPrefixOf (hay.data.drop i)

/-- The mutable device attributes read and written by `generate_samples`:
`parametric_compilation`, `_circuit_hash`, `_compiled_program_dict`
(hash to compiled artifact), `_compiled_program`, `_parameter_map` and
`self.prog`. -/
structure QCDevState where
  parametric_compilation : Bool
  circuit_hash : Option Nat
  compiled_program_dict : List (Nat × Nat)
  compiled_program : Option Nat
  parameter_map : List (String × List Int)
  prog : PyProgram

/-- The `circuit_hash` property (qc.py lines 140-145): the stored hash when
parametric compilation is on, `None` otherwise. -/
def QCDevState.circuitHashProperty (st : QCDevState) : Option Nat :=
  if st.parametric_compilation then st.circuit_hash else none

/-- The loop `for region, value in self._parameter_map.items():
self.prog.write_memory(...)` (qc.py lines 265-266). -/
def writeMemoryAll (prog : PyProgram) : List (String × List Int) → PyProgram
  | [] => prog
  | (region, value) :: rest =>
    writeMemoryAll { prog with memory := dictInsert prog.memory region value } rest

/-- Embedding of `QuantumComputerDevice.generate_samples` (qc.py lines
263-286; `QVMDevice.generate_samples`, qvm.py lines 99-122, is identical).
Returns the updated device state together with the trace of external
interactions; the sample values themselves come from the external machine
and are extracted separately by `extract_samples`. -/
def generate_samples (qc : QuantumComputer) (st0 : QCDevState) : QCDevState × List Ev :=
  let writes :=
    if st0.parametric_compilation then
      st0.parameter_map.map (fun rv => Ev.write rv.1 rv.2)
    else []
  let prog' :=
    if st0.parametric_compilation then writeMemoryAll st0.prog st0.parameter_map
    else st0.prog
  let st := { st0 with prog := prog' }
  if strContainsSubstr qc.name "pyqvm" then
    (st, writes ++ [Ev.run])
  else
    match st.circuitHashProperty with
    | none =>
      ({ st with compiled_program := some (qc.compile prog') },
        writes ++ [Ev.compile none, Ev.run])
    | some h =>
      let dict' :=
        if (st.compiled_program_dict.lookup h).isSome then st.compiled_program_dict
        else dictInsert st.compiled_program_dict h (qc.compile prog')
      let evs :=
        if (st.compiled_program_dict.lookup h).isSome then ([] : List Ev)
        else [Ev.compile (some h)]
      ({ st with compiled_program_dict := dict', compiled_program := dict'.lookup h },
        writes ++ evs ++ [Ev.run])

/-- One circuit evaluation as the device drives it around
`generate_samples`: `execute` stores the circuit's structural hash in
`_circuit_hash` (qc.py lines 258-261), and the preceding build places the
freshly built program in `self.prog` and the current numeric bindings in
`_parameter_map`. -/
structure RunCall where
  hash : Nat
  progCode : Nat
  params : List (String × List Int)
deriving DecidableEq

/-- Sets up the device state for one evaluation and calls
`generate_samples`. -/
def doCall (qc : QuantumComputer) (st : QCDevState) (c : RunCall) : QCDevState × List Ev :=
  generate_samples qc
    { st with
      circuit_hash := some c.hash
      prog := ⟨c.progCode, []⟩
      parameter_map := c.params }

/-- A sequence of circuit evaluations over the device's lifetime,
accumulating the interaction trace. -/
def runCalls (qc : QuantumComputer) : QCDevState → List RunCall → QCDevState × List Ev
  | st, [] => (st, [])
  | st, c :: rest =>
    let r1 := doCall qc st c
    let r2 := runCalls qc r1.1 rest
    (r2.1, r1.2 ++ r2.2)

/-- Number of invocations of the external compiler recorded for circuit
hash `h` in a trace. -/
def countCompiles (h : Nat) (evs : List Ev) : Nat :=
  (evs.filter (fun e => decide (e = Ev.compile (some h)))).length

/-- The compile and run events of a trace, with the parameter pushes
removed. -/
def nonWriteEvs (evs : List Ev) : List Ev :=
  evs.filter (fun e => match e with | .write _ _ => false | _ => true)

/-- Two call sequences that differ at most in the numeric parameter values
pushed before running: same length, same circuit hashes, same program
structure. -/
def sameStructure (cs cs' : List RunCall) : Prop :=
  List.Forall₂ (fun c c' => c.hash = c'.hash ∧ c.progCode = c'.progCode) cs cs'

/-- The fresh-device state: parametric compilation enabled, nothing
compiled yet, empty cache and binding table (qc.py lines 84-104). -/
def initialState : QCDevState :=
  { parametric_compilation := true
    circuit_hash := none
    compiled_program_dict := []
    compiled_program := none
    parameter_map := []
    prog := ⟨0, []⟩ }

/-! ### Sample extraction and QVM device construction -/

/-- Readout data of a pyQuil `QAMExecutionResult`: the named classical
memory regions holding the measured bit arrays. -/
structure QAMExecutionResult where
  readout_data : List (String × List (List Nat))
deriving DecidableEq

/-- Embedding of `extract_samples` (qc.py lines 288-295; identical in
qvm.py lines 124-131): `execution_results.readout_data.get("ro", [])`. -/
def extract_samples (execution_results : QAMExecutionResult) : List (List Nat) :=
  (execution_results.readout_data.lookup "ro").getD []

/-- External actions of device construction; `getQC` marks the call
`self.get_qc(device, **timeout_args)` that contacts the machine stack. -/
inductive InitEv where
  | getQC (device : String)
deriving DecidableEq

/-- Embedding of `QuantumComputerDevice.__init__` (qc.py lines 78-133)
restricted to what `QVMDevice` construction exercises: the shot check,
then the machine contact via `get_qc`; the subsequent wiring bookkeeping
is irrelevant to the claims and abstracted as success. -/
def quantumComputerDeviceInit (device : String) (shots : Option Int) :
    List InitEv × Except String Unit :=
  if (match shots with | some s => decide (s ≤ 0) | none => false) then
    ([], .error "Number of shots must be a positive integer or None.")
  else
    ([InitEv.getQC device], .ok ())

/-- Embedding of `QVMDevice.__init__` (qvm.py lines 74-78): `shots=None`
is rejected before the base class (and hence the machine stack) is ever
reached. -/
def qvmDeviceInit (device : String) (shots : Option Int) :
    List InitEv × Except String Unit :=
  if shots = none then
    ([], .error "QVM device cannot be used for analytic computations.")
  else
    quantumComputerDeviceInit device shots

/-! ### C2, C8: tensor contraction on concrete inputs, shape check -/

/-- C2: applying the 2x2 Pauli-X operator matrix to qubit 0 of the 2-qubit
state `[1, 0, 0, 0]` through `mat_vec_product` yields `[0, 0, 1, 0]`, and
applying the same matrix to qubit 1 yields `[0, 1, 0, 0]`, under the fixed
most-significant-qubit-first axis-order convention. -/
theorem pauliX_mat_vec_product_two_qubits :
    resultList (mat_vec_product (R := Int) 2
      ⟨2, 2, fun i j => if i + j = 1 then 1 else 0⟩
      (fun m => if m = 0 then 1 else 0) [0]) 4 = some [0, 0, 1, 0] ∧
    resultList (mat_vec_product (R := Int) 2
      ⟨2, 2, fun i j => if i + j = 1 then 1 else 0⟩
      (fun m => if m = 0 then 1 else 0) [1]) 4 = some [0, 1, 0, 0] := by
  decide

/-- C8: `mat_vec_product` fails with the dimension-mismatch error naming
the expected shape whenever the supplied matrix's shape differs from
`(2 ^ k, 2 ^ k)` for `k` target wires, and succeeds (never raises) when
the shape matches. -/
theorem mat_vec_product_dimension_check {R : Type} [CommRing R] (n : Nat)
    (mat : NpMatrix R) (vec : Nat → R) (wls : List Nat) :
    (mat.rows ≠ 2 ^ wls.length ∨ mat.cols ≠ 2 ^ wls.length →
      mat_vec_product n mat vec wls =
        .error
          s!"Please specify a {2 ^ wls.length} x {2 ^ wls.length} matrix for {wls.length} wires.") ∧
    (mat.rows = 2 ^ wls.length ∧ mat.cols = 2 ^ wls.length →
      ∃ f, mat_vec_product n mat vec wls = .ok f) := by
  constructor
  · intro h
    unfold mat_vec_product
    rw [if_pos h]
  · rintro ⟨h1, h2⟩
    unfold mat_vec_product
    rw [if_neg (by simp [h1, h2])]
    exact ⟨_, rfl⟩

/-- Witness for C8: a 4x4 matrix against a single target qubit raises the
error naming the expected 2x2 shape, while a 2x2 matrix does not raise. -/
theorem mat_vec_product_dimension_check_witness :
    mat_vec_product (R := Int) 1 ⟨4, 4, fun _ _ => 0⟩ (fun _ => 0) [0] =
      .error "Please specify a 2 x 2 matrix for 1 wires." ∧
    ∃ f, mat_vec_product (R := Int) 1 ⟨2, 2, fun _ _ => 0⟩ (fun _ => 0) [0] = .ok f :=
  ⟨((mat_vec_product_dimension_check 1 ⟨4, 4, fun _ _ => 0⟩ (fun _ => 0) [0]).1
      (by decide)).trans (by rfl),
    (mat_vec_product_dimension_check 1 ⟨2, 2, fun _ _ => 0⟩ (fun _ => 0) [0]).2 (by decide)⟩

/-! ### C9: sample extraction -/

/-- C9: `extract_samples` returns the empty sequence (without failing)
when the readout data lacks the register named "ro", and returns exactly
the contents of that register when present. -/
theorem extract_samples_ro_register (res : QAMExecutionResult) :
    (res.readout_data.lookup "ro" = none → extract_samples res = []) ∧
    (∀ s, res.readout_data.lookup "ro" = some s → extract_samples res = s) := by
  refine ⟨fun h => ?_, fun s h => ?_⟩
  · simp [extract_samples, h]
  · simp [extract_samples, h]

/-- Witness for C9: a result with no "ro" register yields `[]`; a result
carrying an "ro" register yields its contents. -/
theorem extract_samples_ro_register_witness :
    extract_samples ⟨[("other", [[1]])]⟩ = [] ∧
    extract_samples ⟨[("ro", [[1, 0], [0, 1]])]⟩ = [[1, 0], [0, 1]] :=
  ⟨(extract_samples_ro_register ⟨[("other", [[1]])]⟩).1 (by decide),
    (extract_samples_ro_register ⟨[("ro", [[1, 0], [0, 1]])]⟩).2 _ (by decide)⟩

/-! ### C10: QVM device construction with shots=None -/

/-- C10: constructing a `QVMDevice` with `shots=None` always fails with
the error stating the QVM device cannot be used for analytic computations,
and no machine contact happens (the event trace is empty): the analytic
mode is unreachable for this device. -/
theorem qvm_init_rejects_analytic (device : String) :
    qvmDeviceInit device none =
      ([], .error "QVM device cannot be used for analytic computations.") := by
  simp [qvmDeviceInit]

/-! ### Builder helper lemmas -/

theorem dictInsert_ne_nil {κ α : Type} [DecidableEq κ] (m : List (κ × α)) (k : κ) (v : α) :
    dictInsert m k v ≠ [] := by
  cases m with
  | nil => simp [dictInsert]
  | cons hd tl =>
    obtain ⟨k', v'⟩ := hd
    simp only [dictInsert]
    split <;> simp

theorem lookup_dictInsert_self {κ α : Type} [DecidableEq κ] (m : List (κ × α)) (k : κ) (v : α) :
    (dictInsert m k v).lookup k = some v := by
  induction m with
  | nil => simp [dictInsert, List.lookup_cons]
  | cons hd tl ih =>
    obtain ⟨k', v'⟩ := hd
    simp only [dictInsert]
    by_cases h : k' = k
    · rw [if_pos h]
      simp [List.lookup_cons]
    · rw [if_neg h]
      simpa [List.lookup_cons, beq_false_of_ne (Ne.symm h)] using ih

theorem lookup_dictInsert_ne {κ α : Type} [DecidableEq κ] (m : List (κ × α)) (k k' : κ)
    (v : α) (h : k' ≠ k) : (dictInsert m k v).lookup k' = m.lookup k' := by
  induction m with
  | nil => simp [dictInsert, List.lookup_cons, beq_false_of_ne h]
  | cons hd tl ih =>
    obtain ⟨k'', v'⟩ := hd
    simp only [dictInsert]
    by_cases hk : k'' = k
    · rw [if_pos hk]
      subst hk
      simp [List.lookup_cons, beq_false_of_ne h]
    · rw [if_neg hk]
      by_cases hk' : k'' = k'
      · subst hk'
        simp [List.lookup_cons]
      · simpa [List.lookup_cons, beq_false_of_ne (Ne.symm hk')] using ih

theorem mem_keys_dictInsert {κ α : Type} [DecidableEq κ] (m : List (κ × α)) (k a : κ) (v : α) :
    a ∈ (dictInsert m k v).map Prod.fst ↔ a ∈ m.map Prod.fst ∨ a = k := by
  induction m with
  | nil => simp [dictInsert]
  | cons hd tl ih =>
    obtain ⟨k', v'⟩ := hd
    simp only [dictInsert]
    by_cases h : k' = k
    · subst h
      simp
      tauto
    · rw [if_neg h]
      simp [ih]
      tauto

theorem keys_nodup_dictInsert {κ α : Type} [DecidableEq κ] (m : List (κ × α)) (k : κ) (v : α)
    (h : (m.map Prod.fst).Nodup) : ((dictInsert m k v).map Prod.fst).Nodup := by
  induction m with
  | nil => simp [dictInsert]
  | cons hd tl ih =>
    obtain ⟨k', v'⟩ := hd
    simp only [List.map_cons, List.nodup_cons] at h
    simp only [dictInsert]
    by_cases hk : k' = k
    · subst hk
      simpa [List.nodup_cons] using h
    · rw [if_neg hk]
      simp only [List.map_cons, List.nodup_cons]
      refine ⟨fun hmem => ?_, ih h.2⟩
      rcases (mem_keys_dictInsert tl k k' v).mp hmem with h' | h'
      · exact h.1 h'
      · exact hk h'

theorem processParam_not_handled (opName : String) (st : BuildState) (p : Param)
    (h : ¬ handledParam opName p) : processParam opName st p = (st, .lit p.value) := by
  unfold processParam
  rw [if_neg h]

theorem processParam_snd (opName : String) (st : BuildState) (p : Param)
    (hwf : RefMapWF st) : (processParam opName st p).2 = paramSpec opName p := by
  by_cases h : handledParam opName p
  · unfold processParam paramSpec
    rw [if_pos h, if_pos h]
    dsimp only
    by_cases hl : (st.parameter_reference_map.lookup ("theta" ++ p.pid)).isSome
    · rw [if_pos hl]
      obtain ⟨r, hr⟩ := Option.isSome_iff_exists.mp hl
      rw [hr, hwf _ _ hr]
      rfl
    · rw [if_neg hl, lookup_dictInsert_self]
      rfl
  · rw [processParam_not_handled _ _ _ h]
    unfold paramSpec
    rw [if_neg h]

theorem processParam_wf (opName : String) (st : BuildState) (p : Param)
    (hwf : RefMapWF st) : RefMapWF (processParam opName st p).1 := by
  by_cases h : handledParam opName p
  · unfold processParam
    rw [if_pos h]
    dsimp only
    by_cases hl : (st.parameter_reference_map.lookup ("theta" ++ p.pid)).isSome
    · rw [if_pos hl]
      exact hwf
    · rw [if_neg hl]
      intro s r hr
      by_cases hs : s = "theta" ++ p.pid
      · subst hs
        rw [lookup_dictInsert_self] at hr
        cases hr
        rfl
      · rw [lookup_dictInsert_ne _ _ _ _ hs] at hr
        exact hwf _ _ hr
  · rw [processParam_not_handled _ _ _ h]
    exact hwf

theorem processParam_keys_nodup (opName : String) (st : BuildState) (p : Param)
    (h : (st.parameter_reference_map.map Prod.fst).Nodup) :
    ((processParam opName st p).1.parameter_reference_map.map Prod.fst).Nodup := by
  by_cases hc : handledParam opName p
  · unfold processParam
    rw [if_pos hc]
    dsimp only
    by_cases hl : (st.parameter_reference_map.lookup ("theta" ++ p.pid)).isSome
    · rw [if_pos hl]
      exact h
    · rw [if_neg hl]
      exact keys_nodup_dictInsert _ _ _ h
  · rw [processParam_not_handled _ _ _ hc]
    exact h

theorem processParam_pmap_ne_nil (opName : String) (st : BuildState) (p : Param)
    (hc : handledParam opName p) : (processParam opName st p).1.parameter_map ≠ [] := by
  unfold processParam
  rw [if_pos hc]
  dsimp only
  exact dictInsert_ne_nil _ _ _

theorem processParam_pmap_mono (opName : String) (st : BuildState) (p : Param)
    (h : st.parameter_map ≠ []) : (processParam opName st p).1.parameter_map ≠ [] := by
  by_cases hc : handledParam opName p
  · exact processParam_pmap_ne_nil _ _ _ hc
  · rw [processParam_not_handled _ _ _ hc]
    exact h

theorem processParams_fst_cons (opName : String) (st : BuildState) (p : Param)
    (rest : List Param) :
    (processParams opName st (p :: rest)).1 =
      (processParams opName (processParam opName st p).1 rest).1 := rfl

theorem processParams_snd_cons (opName : String) (st : BuildState) (p : Param)
    (rest : List Param) :
    (processParams opName st (p :: rest)).2 =
      (processParam opName st p).2 ::
        (processParams opName (processParam opName st p).1 rest).2 := rfl

theorem processParams_wf (opName : String) :
    ∀ (ps : List Param) (st : BuildState), RefMapWF st →
      RefMapWF (processParams opName st ps).1
  | [], _, hwf => hwf
  | p :: rest, st, hwf => by
    rw [processParams_fst_cons]
    exact processParams_wf opName rest _ (processParam_wf _ _ _ hwf)

theorem processParams_keys_nodup (opName : String) :
    ∀ (ps : List Param) (st : BuildState),
      (st.parameter_reference_map.map Prod.fst).Nodup →
      ((processParams opName st ps).1.parameter_reference_map.map Prod.fst).Nodup
  | [], _, h => h
  | p :: rest, st, h => by
    rw [processParams_fst_cons]
    exact processParams_keys_nodup opName rest _ (processParam_keys_nodup _ _ _ h)

theorem processParams_snd (opName : String) :
    ∀ (ps : List Param) (st : BuildState), RefMapWF st →
      (processParams opName st ps).2 = ps.map (paramSpec opName)
  | [], _, _ => rfl
  | p :: rest, st, hwf => by
    rw [processParams_snd_cons, processParam_snd _ _ _ hwf,
      processParams_snd opName rest _ (processParam_wf _ _ _ hwf), List.map_cons]

theorem processParams_not_handled (opName : String) :
    ∀ (ps : List Param) (st : BuildState), (∀ p ∈ ps, ¬ handledParam opName p) →
      (processParams opName st ps).1 = st
  | [], _, _ => rfl
  | p :: rest, st, h => by
    rw [processParams_fst_cons, processParam_not_handled _ _ _ (h p (by simp))]
    exact processParams_not_handled opName rest st (fun q hq => h q (by simp [hq]))

theorem processParams_pmap_mono (opName : String) :
    ∀ (ps : List Param) (st : BuildState), st.parameter_map ≠ [] →
      (processParams opName st ps).1.parameter_map ≠ []
  | [], _, h => h
  | p :: rest, st, h => by
    rw [processParams_fst_cons]
    exact processParams_pmap_mono opName rest _ (processParam_pmap_mono _ _ _ h)

theorem processParams_pmap_of_handled (opName : String) :
    ∀ (ps : List Param) (st : BuildState), (∃ p ∈ ps, handledParam opName p) →
      (processParams opName st ps).1.parameter_map ≠ []
  | [], _, h => absurd h (by simp)
  | p :: rest, st, h => by
    rw [processParams_fst_cons]
    rcases h with ⟨q, hq, hqh⟩
    rcases List.mem_cons.mp hq with rfl | hq'
    · exact processParams_pmap_mono opName rest _ (processParam_pmap_ne_nil _ _ _ hqh)
    · exact processParams_pmap_of_handled opName rest _ ⟨q, hq', hqh⟩

theorem applyOperation_stateprep (supported : List String) (wiring : Nat → Nat) (i : Nat)
    (op : Operation) (st : BuildState) (hi : 0 < i) (hsp : isStatePrep op) :
    applyOperation supported wiring i op st = (st, .error (.statePreparationOrder op.name)) := by
  unfold applyOperation
  dsimp only
  rw [if_pos ⟨hi, hsp⟩]

theorem applyOperation_supported (supported : List String) (wiring : Nat → Nat) (i : Nat)
    (op : Operation) (st : BuildState) (hc : ¬(0 < i ∧ isStatePrep op))
    (hs : op.name ∈ supported) :
    applyOperation supported wiring i op st =
      ((processParams op.name st op.data).1,
        .ok ⟨op.name, (processParams op.name st op.data).2, op.wires.map wiring⟩) := by
  unfold applyOperation
  dsimp only
  rw [if_neg hc, if_pos hs]

theorem applyOperation_unsupported (supported : List String) (wiring : Nat → Nat) (i : Nat)
    (op : Operation) (st : BuildState) (hc : ¬(0 < i ∧ isStatePrep op))
    (hs : op.name ∉ supported) :
    applyOperation supported wiring i op st =
      ((processParams op.name st op.data).1, .error (.unsupportedOperation op.name)) := by
  unfold applyOperation
  dsimp only
  rw [if_neg hc, if_neg hs]

theorem applyParametricAux_nil (supported : List String) (wiring : Nat → Nat) (i : Nat)
    (st : BuildState) : applyParametricAux supported wiring i [] st = (st, .ok []) := rfl

theorem applyParametricAux_cons_error {supported : List String} {wiring : Nat → Nat}
    {i : Nat} {op : Operation} {st st' : BuildState} {e : BuildError}
    (rest : List Operation) (h : applyOperation supported wiring i op st = (st', .error e)) :
    applyParametricAux supported wiring i (op :: rest) st = (st', .error e) := by
  unfold applyParametricAux
  dsimp only
  rw [h]

theorem applyParametricAux_cons_ok_error {supported : List String} {wiring : Nat → Nat}
    {i : Nat} {op : Operation} {st st' st'' : BuildState} {instr : Instr} {e : BuildError}
    (rest : List Operation) (h : applyOperation supported wiring i op st = (st', .ok instr))
    (h2 : applyParametricAux supported wiring (i + 1) rest st' = (st'', .error e)) :
    applyParametricAux supported wiring i (op :: rest) st = (st'', .error e) := by
  unfold applyParametricAux
  dsimp only
  rw [h]
  dsimp only
  rw [h2]

theorem applyParametricAux_cons_ok_ok {supported : List String} {wiring : Nat → Nat}
    {i : Nat} {op : Operation} {st st' st'' : BuildState} {instr : Instr}
    {instrs : List Instr} (rest : List Operation)
    (h : applyOperation supported wiring i op st = (st', .ok instr))
    (h2 : applyParametricAux supported wiring (i + 1) rest st' = (st'', .ok instrs)) :
    applyParametricAux supported wiring i (op :: rest) st = (st'', .ok (instr :: instrs)) := by
  unfold applyParametricAux
  dsimp only
  rw [h]
  dsimp only
  rw [h2]

theorem auxStatePrepFails (supported : List String) (wiring : Nat → Nat) (sp : Operation)
    (hsp : isStatePrep sp) :
    ∀ (pre rest : List Operation) (st : BuildState) (k : Nat),
      0 < k + pre.length →
      (∀ op ∈ pre, op.name ∈ supported) →
      ∃ nm, (applyParametricAux supported wiring k (pre ++ sp :: rest) st).2 =
        .error (.statePreparationOrder nm)
  | [], rest, st, k, hk, _ => by
    refine ⟨sp.name, ?_⟩
    rw [List.nil_append,
      applyParametricAux_cons_error rest
        (applyOperation_stateprep supported wiring k sp st (by simpa using hk) hsp)]
  | op :: pre', rest, st, k, _, hsupp => by
    by_cases hc : 0 < k ∧ isStatePrep op
    · refine ⟨op.name, ?_⟩
      rw [List.cons_append,
        applyParametricAux_cons_error (pre' ++ sp :: rest)
          (applyOperation_stateprep supported wiring k op st hc.1 hc.2)]
    · obtain ⟨nm, hnm⟩ := auxStatePrepFails supported wiring sp hsp pre' rest
        ((processParams op.name st op.data).1) (k + 1) (by omega)
        (fun o ho => hsupp o (by simp [ho]))
      refine ⟨nm, ?_⟩
      have hop := applyOperation_supported supported wiring k op st hc (hsupp op (by simp))
      rcases h2 : applyParametricAux supported wiring (k + 1) (pre' ++ sp :: rest)
          (processParams op.name st op.data).1 with ⟨st2, res2⟩
      rw [h2] at hnm
      dsimp only at hnm
      cases res2 with
      | error e =>
        cases hnm
        rw [List.cons_append, applyParametricAux_cons_ok_error (pre' ++ sp :: rest) hop h2]
      | ok instrs => exact absurd hnm (by simp)

theorem auxNoMisplacedStatePrep (supported : List String) (wiring : Nat → Nat) :
    ∀ (ops : List Operation) (st : BuildState) (k : Nat),
      (∀ pre sp rest, ops = pre ++ sp :: rest → isStatePrep sp → k + pre.length = 0) →
      ∀ nm, (applyParametricAux supported wiring k ops st).2 ≠
        .error (.statePreparationOrder nm)
  | [], st, k, _, nm => by
    rw [applyParametricAux_nil]
    simp
  | op :: ops', st, k, H, nm => by
    have hc : ¬(0 < k ∧ isStatePrep op) := by
      rintro ⟨hk, hsp⟩
      have := H [] op ops' rfl hsp
      omega
    have IH := auxNoMisplacedStatePrep supported wiring ops'
      (processParams op.name st op.data).1 (k + 1)
      (fun pre sp rest heq hsp => by
        have := H (op :: pre) sp rest (by rw [heq, List.cons_append]) hsp
        simp at this)
    by_cases hs : op.name ∈ supported
    · have hop := applyOperation_supported supported wiring k op st hc hs
      rcases h2 : applyParametricAux supported wiring (k + 1) ops'
          (processParams op.name st op.data).1 with ⟨st2, res2⟩
      cases res2 with
      | error e =>
        rw [applyParametricAux_cons_ok_error ops' hop h2]
        intro hcontra
        apply IH nm
        rw [h2]
        simpa using hcontra
      | ok instrs =>
        rw [applyParametricAux_cons_ok_ok ops' hop h2]
        simp
    · rw [applyParametricAux_cons_error ops'
        (applyOperation_unsupported supported wiring k op st hc hs)]
      simp

/-- C4 counterexample: with only `BasisState` supported, the sequence
(unsupported "FooBar" first, then "BasisState" at position 1) contains a
state-preparation operation at a non-first position, yet the build fails
with the unsupported-operation error rather than
`StatePreparationOrderError`. -/
theorem stateprep_order_counterexample :
    (apply_parametric_operations ["BasisState"] (fun q => q)
      [⟨"FooBar", [], [0]⟩, ⟨"BasisState", [], [0]⟩] ⟨[], []⟩).2 =
      .error (.unsupportedOperation "FooBar") := by
  decide

/-- C4 (amended): a state-preparation operation at a position other than
the first causes the build to fail with `StatePreparationOrderError`
provided every earlier operation's name is in the supported table (an
unsupported earlier operation fails first with a different error), and a
circuit whose state preparations occur only at the first position never
triggers that error. -/
theorem stateprep_order_enforced (supported : List String) (wiring : Nat → Nat)
    (ops : List Operation) (st : BuildState) :
    (∀ pre sp rest, ops = pre ++ sp :: rest → isStatePrep sp → 0 < pre.length →
        (∀ op ∈ pre, op.name ∈ supported) →
      ∃ nm, (apply_parametric_operations supported wiring ops st).2 =
        .error (.statePreparationOrder nm)) ∧
    ((∀ pre sp rest, ops = pre ++ sp :: rest → isStatePrep sp → pre = []) →
      ∀ nm, (apply_parametric_operations supported wiring ops st).2 ≠
        .error (.statePreparationOrder nm)) := by
  constructor
  · intro pre sp rest heq hsp hlen hsupp
    subst heq
    exact auxStatePrepFails supported wiring sp hsp pre rest st 0 (by omega) hsupp
  · intro H nm
    exact auxNoMisplacedStatePrep supported wiring ops st 0
      (fun pre sp rest heq hsp => by simp [H pre sp rest heq hsp]) nm

/-- Witness for C4 (amended): a supported rotation followed by
`BasisState` at position 1 fails with the state-preparation-order error,
and a circuit whose only state preparation is the very first operation
never fails with that error. -/
theorem stateprep_order_enforced_witness :
    (∃ nm, (apply_parametric_operations ["RX"] (fun q => q)
      [⟨"RX", [], [0]⟩, ⟨"BasisState", [], [0]⟩] ⟨[], []⟩).2 =
        .error (.statePreparationOrder nm)) ∧
    (∀ nm, (apply_parametric_operations ["RX", "BasisState"] (fun q => q)
      [⟨"BasisState", [], [0]⟩, ⟨"RX", [], [0]⟩] ⟨[], []⟩).2 ≠
        .error (.statePreparationOrder nm)) := by
  constructor
  · exact (stateprep_order_enforced ["RX"] (fun q => q)
      [⟨"RX", [], [0]⟩, ⟨"BasisState", [], [0]⟩] ⟨[], []⟩).1
      [⟨"RX", [], [0]⟩] ⟨"BasisState", [], [0]⟩ [] rfl (by decide) (by decide) (by decide)
  · refine (stateprep_order_enforced ["RX", "BasisState"] (fun q => q)
      [⟨"BasisState", [], [0]⟩, ⟨"RX", [], [0]⟩] ⟨[], []⟩).2 ?_
    intro pre sp rest heq hsp
    cases pre with
    | nil => rfl
    | cons a t =>
      cases t with
      | nil =>
        simp only [List.cons_append, List.nil_append, List.cons.injEq] at heq
        obtain ⟨-, h2, -⟩ := heq
        subst h2
        exact absurd hsp (by decide)
      | cons b u =>
        exfalso
        have := congrArg List.length heq
        simp at this

theorem buildTableFold_cons (st : BuildState) (op : Operation) (l : List Operation) :
    buildTableFold st (op :: l) = buildTableFold (processParams op.name st op.data).1 l := rfl

theorem buildTableFold_no_handled :
    ∀ (l : List Operation) (st : BuildState), noHandledParams l → buildTableFold st l = st
  | [], _, _ => rfl
  | op :: l, st, h => by
    rw [buildTableFold_cons,
      processParams_not_handled op.name op.data st (fun p hp => h op (by simp) p hp)]
    exact buildTableFold_no_handled l st (fun o ho p hp => h o (by simp [ho]) p hp)

theorem buildTableFold_pmap_mono :
    ∀ (l : List Operation) (st : BuildState), st.parameter_map ≠ [] →
      (buildTableFold st l).parameter_map ≠ []
  | [], _, h => h
  | op :: l, st, h => by
    rw [buildTableFold_cons]
    exact buildTableFold_pmap_mono l _ (processParams_pmap_mono op.name op.data st h)

theorem buildTableFold_pmap_of_handled :
    ∀ (l : List Operation) (st : BuildState),
      (∃ op ∈ l, ∃ p ∈ op.data, handledParam op.name p) →
      (buildTableFold st l).parameter_map ≠ []
  | [], _, h => absurd h (by simp)
  | op :: l, st, h => by
    rw [buildTableFold_cons]
    rcases h with ⟨o, ho, hp⟩
    rcases List.mem_cons.mp ho with rfl | ho'
    · exact buildTableFold_pmap_mono l _ (processParams_pmap_of_handled o.name o.data st hp)
    · exact buildTableFold_pmap_of_handled l _ ⟨o, ho', hp⟩

theorem auxUnsupportedFails (supported : List String) (wiring : Nat → Nat) (bad : Operation)
    (hbad : bad.name ∉ supported) :
    ∀ (pre rest : List Operation) (st : BuildState) (k : Nat),
      (∀ op ∈ pre, op.name ∈ supported) →
      (∀ pre1 sp rest1, pre = pre1 ++ sp :: rest1 → isStatePrep sp → k + pre1.length = 0) →
      (isStatePrep bad → k + pre.length = 0) →
      applyParametricAux supported wiring k (pre ++ bad :: rest) st =
        (buildTableFold st (pre ++ [bad]), .error (.unsupportedOperation bad.name))
  | [], rest, st, k, _, _, hbadsp => by
    have hc : ¬(0 < k ∧ isStatePrep bad) := by
      rintro ⟨hk, hsp⟩
      have := hbadsp hsp
      omega
    rw [List.nil_append,
      applyParametricAux_cons_error rest
        (applyOperation_unsupported supported wiring k bad st hc hbad)]
    rfl
  | op :: pre', rest, st, k, hsupp, hpresp, hbadsp => by
    have hc : ¬(0 < k ∧ isStatePrep op) := by
      rintro ⟨hk, hsp⟩
      have := hpresp [] op pre' rfl hsp
      omega
    have hop := applyOperation_supported supported wiring k op st hc (hsupp op (by simp))
    have IH := auxUnsupportedFails supported wiring bad hbad pre' rest
      (processParams op.name st op.data).1 (k + 1)
      (fun o ho => hsupp o (by simp [ho]))
      (fun pre1 sp rest1 heq hsp => by
        have := hpresp (op :: pre1) sp rest1 (by rw [heq, List.cons_append]) hsp
        simp at this)
      (fun hsp => by
        have := hbadsp hsp
        simp at this)
    rw [List.cons_append, applyParametricAux_cons_ok_error (pre' ++ bad :: rest) hop IH,
      List.cons_append, buildTableFold_cons]

/-- C5 counterexample: a single unsupported operation carrying a
differentiable parameter fails with the unsupported-operation error, but
the failed build has already inserted the parameter's entry into both the
value map and the reference map (starting from the empty table), so the
binding table is not left unchanged. -/
theorem unsupported_op_counterexample :
    apply_parametric_operations [] (fun q => q)
      [⟨"FooBar", [⟨"7", true, 5⟩], [0]⟩] ⟨[], []⟩ =
      (⟨[("theta7", [5])], [("theta7", ⟨"theta7"⟩)]⟩,
        .error (.unsupportedOperation "FooBar")) := by
  decide

/-- C5 (amended): when the first failing operation is one whose name is
absent from the supported table (all earlier operations supported, no
misplaced state preparation up to it), the build fails with
`UnsupportedOperationError`; starting from an empty binding table, the
table is left unchanged by the failed build exactly when no
differentiable (non-`BasisState`) parameter occurs in the operations up
to and including the failing one — entries inserted for parameters
processed before the failure are retained. -/
theorem unsupported_op_behavior (supported : List String) (wiring : Nat → Nat)
    (pre : List Operation) (bad : Operation) (rest : List Operation)
    (hbad : bad.name ∉ supported)
    (hpre : ∀ op ∈ pre, op.name ∈ supported)
    (hpresp : ∀ sp ∈ pre.drop 1, ¬ isStatePrep sp)
    (hbadsp : pre = [] ∨ ¬ isStatePrep bad) :
    (apply_parametric_operations supported wiring (pre ++ bad :: rest) ⟨[], []⟩).2 =
      .error (.unsupportedOperation bad.name) ∧
    ((apply_parametric_operations supported wiring (pre ++ bad :: rest) ⟨[], []⟩).1 =
        (⟨[], []⟩ : BuildState) ↔
      noHandledParams (pre ++ [bad])) := by
  have hkey := auxUnsupportedFails supported wiring bad hbad pre rest ⟨[], []⟩ 0 hpre
    (fun pre1 sp rest1 heq hsp => by
      cases pre1 with
      | nil => simp
      | cons a t =>
        exfalso
        refine hpresp sp ?_ hsp
        rw [heq]
        simp
    )
    (fun hsp => by
      rcases hbadsp with h | h
      · simp [h]
      · exact absurd hsp h)
  have hkey' : apply_parametric_operations supported wiring (pre ++ bad :: rest) ⟨[], []⟩ =
      (buildTableFold ⟨[], []⟩ (pre ++ [bad]), .error (.unsupportedOperation bad.name)) := hkey
  rw [hkey']
  refine ⟨rfl, ?_, ?_⟩
  · intro h
    by_contra hcontra
    unfold noHandledParams at hcontra
    push_neg at hcontra
    obtain ⟨o, ho, p, hp, hph⟩ := hcontra
    exact absurd (congrArg BuildState.parameter_map h)
      (buildTableFold_pmap_of_handled _ _ ⟨o, ho, p, hp, hph⟩)
  · intro h
    exact buildTableFold_no_handled _ _ h

/-- Witness for C5 (amended): a supported parameterless rotation followed
by an unsupported operation fails with the unsupported-operation error
and, since no differentiable parameter occurs, leaves the empty binding
table unchanged. -/
theorem unsupported_op_behavior_witness :
    (apply_parametric_operations ["RX"] (fun q => q)
      ([⟨"RX", [], [0]⟩] ++ ⟨"FooBar", [], [1]⟩ :: []) ⟨[], []⟩).2 =
      .error (.unsupportedOperation "FooBar") ∧
    ((apply_parametric_operations ["RX"] (fun q => q)
      ([⟨"RX", [], [0]⟩] ++ ⟨"FooBar", [], [1]⟩ :: []) ⟨[], []⟩).1 =
        (⟨[], []⟩ : BuildState) ↔
      noHandledParams ([⟨"RX", [], [0]⟩] ++ [⟨"FooBar", [], [1]⟩])) :=
  unsupported_op_behavior ["RX"] (fun q => q) [⟨"RX", [], [0]⟩] ⟨"FooBar", [], [1]⟩ []
    (by decide) (by decide) (by decide) (Or.inr (by decide))

theorem get_map_eq {α β : Type} (f : α → β) (l : List α) (i : Nat)
    (h1 : i < (l.map f).length) (h2 : i < l.length) :
    (l.map f).get ⟨i, h1⟩ = f (l.get ⟨i, h2⟩) := by
  simp [List.get_eq_getElem]

theorem thetaRef_injective (s t : String) (h : thetaRef s = thetaRef t) : s = t := by
  unfold thetaRef at h
  have h2 := congrArg MemoryReference.name h
  dsimp only at h2
  have h3 := congrArg String.data h2
  simp only [String.data_append] at h3
  exact String.ext (List.append_cancel_left h3)

theorem applyParametricAux_ok_spec (supported : List String) (wiring : Nat → Nat) :
    ∀ (ops : List Operation) (st : BuildState) (k : Nat) (st' : BuildState)
      (instrs : List Instr), RefMapWF st →
      applyParametricAux supported wiring k ops st = (st', .ok instrs) →
      instrs = ops.map (instrSpec wiring)
  | [], st, k, st', instrs, _, h => by
    rw [applyParametricAux_nil] at h
    simp only [Prod.mk.injEq, Except.ok.injEq] at h
    obtain ⟨-, h2⟩ := h
    rw [← h2]
    rfl
  | op :: ops', st, k, st', instrs, hwf, h => by
    by_cases hc : 0 < k ∧ isStatePrep op
    · rw [applyParametricAux_cons_error ops'
        (applyOperation_stateprep supported wiring k op st hc.1 hc.2)] at h
      simp at h
    · by_cases hs : op.name ∈ supported
      · have hop := applyOperation_supported supported wiring k op st hc hs
        rcases h2 : applyParametricAux supported wiring (k + 1) ops'
            (processParams op.name st op.data).1 with ⟨st2, res2⟩
        cases res2 with
        | error e =>
          rw [applyParametricAux_cons_ok_error ops' hop h2] at h
          simp at h
        | ok instrs2 =>
          rw [applyParametricAux_cons_ok_ok ops' hop h2] at h
          simp only [Prod.mk.injEq, Except.ok.injEq] at h
          obtain ⟨-, h3⟩ := h
          rw [← h3, List.map_cons]
          have IH := applyParametricAux_ok_spec supported wiring ops'
            (processParams op.name st op.data).1 (k + 1) st2 instrs2
            (processParams_wf op.name op.data st hwf) h2
          rw [IH]
          unfold instrSpec
          rw [processParams_snd op.name op.data st hwf]
      · rw [applyParametricAux_cons_error ops'
          (applyOperation_unsupported supported wiring k op st hc hs)] at h
        simp at h

theorem applyParametricAux_keys_nodup (supported : List String) (wiring : Nat → Nat) :
    ∀ (ops : List Operation) (st : BuildState) (k : Nat),
      (st.parameter_reference_map.map Prod.fst).Nodup →
      (((applyParametricAux supported wiring k ops st).1.parameter_reference_map).map
        Prod.fst).Nodup
  | [], st, k, h => by
    rw [applyParametricAux_nil]
    exact h
  | op :: ops', st, k, h => by
    by_cases hc : 0 < k ∧ isStatePrep op
    · rw [applyParametricAux_cons_error ops'
        (applyOperation_stateprep supported wiring k op st hc.1 hc.2)]
      exact h
    · have hkeys := processParams_keys_nodup op.name op.data st h
      by_cases hs : op.name ∈ supported
      · have hop := applyOperation_supported supported wiring k op st hc hs
        have IH := applyParametricAux_keys_nodup supported wiring ops'
          (processParams op.name st op.data).1 (k + 1) hkeys
        rcases h2 : applyParametricAux supported wiring (k + 1) ops'
            (processParams op.name st op.data).1 with ⟨st2, res2⟩
        rw [h2] at IH
        cases res2 with
        | error e =>
          rw [applyParametricAux_cons_ok_error ops' hop h2]
          exact IH
        | ok instrs2 =>
          rw [applyParametricAux_cons_ok_ok ops' hop h2]
          exact IH
      · rw [applyParametricAux_cons_error ops'
          (applyOperation_unsupported supported wiring k op st hc hs)]
        exact hkeys

theorem refMapWF_of_empty (pm : List (String × List Int)) :
    RefMapWF ⟨pm, []⟩ := by
  intro s r h
  simp [List.lookup] at h

/-- C7 counterexample: `QubitStateVector` is a state-preparation
operation, yet its differentiable parameter is replaced by a symbolic
memory reference (the code excludes only `BasisState` from substitution),
so the parameters of state-preparation operations are not universally
passed through as literal values. -/
theorem stateprep_param_substitution_counterexample :
    apply_parametric_operations ["QubitStateVector"] (fun q => q)
      [⟨"QubitStateVector", [⟨"9", true, 3⟩], [0]⟩] ⟨[], []⟩ =
      (⟨[("theta9", [3])], [("theta9", ⟨"theta9"⟩)]⟩,
        .ok [⟨"QubitStateVector", [.ref ⟨"theta9"⟩], [0]⟩]) := by
  decide

/-- C7 (amended): on a successful parametric build from a well-formed
reference map, the emitted program is determined instruction by
instruction: a parameter slot is replaced by its symbolic memory
reference exactly when the parameter is marked differentiable and its
operation's name is not `BasisState` (`paramSpec`); every other parameter
— in particular every `BasisState` parameter, but not every
`QubitStateVector` parameter — is passed through as its literal value. -/
theorem parametric_substitution_rule (supported : List String) (wiring : Nat → Nat)
    (ops : List Operation) (st st' : BuildState) (instrs : List Instr)
    (hwf : RefMapWF st)
    (hb : apply_parametric_operations supported wiring ops st = (st', .ok instrs)) :
    instrs = ops.map (instrSpec wiring) :=
  applyParametricAux_ok_spec supported wiring ops st 0 st' instrs hwf hb

/-- Witness for C7 (amended): a differentiable `BasisState` parameter is
emitted as the literal `1`, exactly as `instrSpec` prescribes. -/
theorem parametric_substitution_rule_witness :
    [(⟨"BasisState", [.lit 1], [0]⟩ : Instr)] =
      [(⟨"BasisState", [⟨"4", true, 1⟩], [0]⟩ : Operation)].map (instrSpec (fun q => q)) :=
  parametric_substitution_rule ["BasisState"] (fun q => q)
    [⟨"BasisState", [⟨"4", true, 1⟩], [0]⟩] ⟨[], []⟩ ⟨[], []⟩
    [⟨"BasisState", [.lit 1], [0]⟩] (refMapWF_of_empty []) (by decide)

/-- C6: within a single circuit build (begun from a well-formed,
duplicate-free reference map), parameter-handle allocation is keyed by
the identity of the source parameter object: two handled occurrences
sharing the identity string resolve to the same emitted memory reference;
two occurrences with distinct identity — regardless of their numeric
values — get distinct references; and the final reference map holds at
most one entry per parameter identity (its key list is duplicate-free). -/
theorem handle_allocation_by_identity (supported : List String) (wiring : Nat → Nat)
    (ops : List Operation) (st st' : BuildState) (instrs : List Instr)
    (hwf : RefMapWF st) (hkeys : (st.parameter_reference_map.map Prod.fst).Nodup)
    (hb : apply_parametric_operations supported wiring ops st = (st', .ok instrs))
    (i a i' a' : Nat) (hi : i < ops.length) (hi' : i' < ops.length)
    (ha : a < (ops.getD i ⟨"", [], []⟩).data.length)
    (ha' : a' < (ops.getD i' ⟨"", [], []⟩).data.length)
    (hh : handledParam (ops.getD i ⟨"", [], []⟩).name
      ((ops.getD i ⟨"", [], []⟩).data.getD a ⟨"", false, 0⟩))
    (hh' : handledParam (ops.getD i' ⟨"", [], []⟩).name
      ((ops.getD i' ⟨"", [], []⟩).data.getD a' ⟨"", false, 0⟩)) :
    (((ops.getD i ⟨"", [], []⟩).data.getD a ⟨"", false, 0⟩).pid =
        ((ops.getD i' ⟨"", [], []⟩).data.getD a' ⟨"", false, 0⟩).pid →
      (instrs.getD i ⟨"", [], []⟩).params.getD a (.lit 0) =
        (instrs.getD i' ⟨"", [], []⟩).params.getD a' (.lit 0)) ∧
    (((ops.getD i ⟨"", [], []⟩).data.getD a ⟨"", false, 0⟩).pid ≠
        ((ops.getD i' ⟨"", [], []⟩).data.getD a' ⟨"", false, 0⟩).pid →
      (instrs.getD i ⟨"", [], []⟩).params.getD a (.lit 0) ≠
        (instrs.getD i' ⟨"", [], []⟩).params.getD a' (.lit 0)) ∧
    (st'.parameter_reference_map.map Prod.fst).Nodup := by
  have hspec := applyParametricAux_ok_spec supported wiring ops st 0 st' instrs hwf hb
  subst hspec
  have key : ∀ (j b : Nat), j < ops.length →
      ∀ hbnd : b < (ops.getD j ⟨"", [], []⟩).data.length,
      handledParam (ops.getD j ⟨"", [], []⟩).name
        ((ops.getD j ⟨"", [], []⟩).data.getD b ⟨"", false, 0⟩) →
      ((ops.map (instrSpec wiring)).getD j ⟨"", [], []⟩).params.getD b (.lit 0) =
        .ref (thetaRef ((ops.getD j ⟨"", [], []⟩).data.getD b ⟨"", false, 0⟩).pid) := by
    intro j b hj hbnd hh0
    rw [List.getD_eq_getElem (ops.map (instrSpec wiring)) ⟨"", [], []⟩
      (show j < (ops.map (instrSpec wiring)).length by simpa using hj)]
    simp only [List.getElem_map]
    rw [List.getD_eq_getElem ops ⟨"", [], []⟩ hj] at hbnd hh0 ⊢
    unfold instrSpec
    dsimp only
    rw [List.getD_eq_getElem ((ops[j]).data.map (paramSpec (ops[j]).name)) (.lit 0)
      (show b < _ by simpa using hbnd)]
    simp only [List.getElem_map]
    rw [List.getD_eq_getElem (ops[j]).data ⟨"", false, 0⟩ hbnd] at hh0 ⊢
    unfold paramSpec
    rw [if_pos hh0]
  refine ⟨?_, ?_, ?_⟩
  · intro hp
    rw [key i a hi ha hh, key i' a' hi' ha' hh', hp]
  · intro hp hcontra
    rw [key i a hi ha hh, key i' a' hi' ha' hh'] at hcontra
    exact hp (thetaRef_injective _ _ (PQParam.ref.inj hcontra))
  · have h1 := congrArg Prod.fst hb
    dsimp only at h1
    rw [← h1]
    exact applyParametricAux_keys_nodup supported wiring ops st 0 hkeys

/-- Witness for C6: in a concrete two-operation build, the two
occurrences of the parameter object with identity "5" (value 7) emit the
same memory reference, the occurrence with identity "6" — whose numeric
value 7 is equal — emits a different reference, and the final reference
map's keys are duplicate-free. -/
theorem handle_allocation_by_identity_witness :
    ((([⟨"RX", [.ref ⟨"theta5"⟩], [0]⟩,
        ⟨"RY", [.ref ⟨"theta5"⟩, .ref ⟨"theta6"⟩], [1]⟩] : List Instr).getD 0
          ⟨"", [], []⟩).params.getD 0 (.lit 0) =
      (([⟨"RX", [.ref ⟨"theta5"⟩], [0]⟩,
        ⟨"RY", [.ref ⟨"theta5"⟩, .ref ⟨"theta6"⟩], [1]⟩] : List Instr).getD 1
          ⟨"", [], []⟩).params.getD 0 (.lit 0)) ∧
    ((([⟨"RX", [.ref ⟨"theta5"⟩], [0]⟩,
        ⟨"RY", [.ref ⟨"theta5"⟩, .ref ⟨"theta6"⟩], [1]⟩] : List Instr).getD 1
          ⟨"", [], []⟩).params.getD 0 (.lit 0) ≠
      (([⟨"RX", [.ref ⟨"theta5"⟩], [0]⟩,
        ⟨"RY", [.ref ⟨"theta5"⟩, .ref ⟨"theta6"⟩], [1]⟩] : List Instr).getD 1
          ⟨"", [], []⟩).params.getD 1 (.lit 0)) ∧
    ((([("theta5", ⟨"theta5"⟩), ("theta6", ⟨"theta6"⟩)] :
        List (String × MemoryReference)).map Prod.fst).Nodup) := by
  have H1 := handle_allocation_by_identity ["RX", "RY"] (fun q => q)
    [⟨"RX", [⟨"5", true, 7⟩], [0]⟩, ⟨"RY", [⟨"5", true, 7⟩, ⟨"6", true, 7⟩], [1]⟩]
    ⟨[], []⟩
    ⟨[("theta5", [7]), ("theta6", [7])], [("theta5", ⟨"theta5"⟩), ("theta6", ⟨"theta6"⟩)]⟩
    [⟨"RX", [.ref ⟨"theta5"⟩], [0]⟩, ⟨"RY", [.ref ⟨"theta5"⟩, .ref ⟨"theta6"⟩], [1]⟩]
    (refMapWF_of_empty []) (by decide) (by decide)
    0 0 1 0 (by decide) (by decide) (by decide) (by decide) (by decide) (by decide)
  have H2 := handle_allocation_by_identity ["RX", "RY"] (fun q => q)
    [⟨"RX", [⟨"5", true, 7⟩], [0]⟩, ⟨"RY", [⟨"5", true, 7⟩, ⟨"6", true, 7⟩], [1]⟩]
    ⟨[], []⟩
    ⟨[("theta5", [7]), ("theta6", [7])], [("theta5", ⟨"theta5"⟩), ("theta6", ⟨"theta6"⟩)]⟩
    [⟨"RX", [.ref ⟨"theta5"⟩], [0]⟩, ⟨"RY", [.ref ⟨"theta5"⟩, .ref ⟨"theta6"⟩], [1]⟩]
    (refMapWF_of_empty []) (by decide) (by decide)
    1 0 1 1 (by decide) (by decide) (by decide) (by decide) (by decide) (by decide)
  exact ⟨H1.1 (by decide), H2.2.1 (by decide), H1.2.2⟩

/-! ### Compilation cache lemmas (C1) -/

theorem doCall_spec (qc : QuantumComputer) (st : QCDevState) (c : RunCall)
    (hname : strContainsSubstr qc.name "pyqvm" = false)
    (hpar : st.parametric_compilation = true) :
    (doCall qc st c).1.parametric_compilation = true ∧
    (doCall qc st c).1.compiled_program_dict =
      (if (st.compiled_program_dict.lookup c.hash).isSome then st.compiled_program_dict
       else dictInsert st.compiled_program_dict c.hash
         (qc.compile (writeMemoryAll ⟨c.progCode, []⟩ c.params))) ∧
    (doCall qc st c).2 =
      (c.params.map fun rv => Ev.write rv.1 rv.2) ++
        (if (st.compiled_program_dict.lookup c.hash).isSome then []
         else [Ev.compile (some c.hash)]) ++ [Ev.run] := by
  unfold doCall generate_samples QCDevState.circuitHashProperty
  by_cases hhit : (st.compiled_program_dict.lookup c.hash).isSome
  · simp [hpar, hname, hhit]
  · simp [hpar, hname, hhit]

theorem countCompiles_append (h : Nat) (a b : List Ev) :
    countCompiles h (a ++ b) = countCompiles h a + countCompiles h b := by
  simp [countCompiles, List.filter_append]

theorem countCompiles_writes (h : Nat) (params : List (String × List Int)) :
    countCompiles h (params.map fun rv => Ev.write rv.1 rv.2) = 0 := by
  induction params with
  | nil => rfl
  | cons p rest ih => simpa [countCompiles, List.filter_cons] using ih

theorem countCompiles_run (h : Nat) : countCompiles h [Ev.run] = 0 := rfl

theorem countCompiles_nil (h : Nat) : countCompiles h [] = 0 := rfl

theorem countCompiles_compile (h h' : Nat) :
    countCompiles h [Ev.compile (some h')] = if h' = h then 1 else 0 := by
  by_cases hh : h' = h <;> simp [countCompiles, List.filter_cons, hh]

theorem runCalls_nil (qc : QuantumComputer) (st : QCDevState) :
    runCalls qc st [] = (st, []) := rfl

theorem runCalls_cons (qc : QuantumComputer) (st : QCDevState) (c : RunCall)
    (rest : List RunCall) :
    runCalls qc st (c :: rest) =
      ((runCalls qc (doCall qc st c).1 rest).1,
        (doCall qc st c).2 ++ (runCalls qc (doCall qc st c).1 rest).2) := rfl

theorem lookup_isSome_after_doCall (qc : QuantumComputer) (st : QCDevState) (c : RunCall)
    (h : Nat) (hname : strContainsSubstr qc.name "pyqvm" = false)
    (hpar : st.parametric_compilation = true) :
    ((doCall qc st c).1.compiled_program_dict.lookup h).isSome =
      ((st.compiled_program_dict.lookup h).isSome || h = c.hash) := by
  rw [(doCall_spec qc st c hname hpar).2.1]
  by_cases hhit : (st.compiled_program_dict.lookup c.hash).isSome
  · rw [if_pos hhit]
    by_cases hh : h = c.hash
    · subst hh
      simp [hhit]
    · simp [hh]
  · rw [if_neg hhit]
    by_cases hh : h = c.hash
    · subst hh
      simp [lookup_dictInsert_self]
    · rw [lookup_dictInsert_ne _ _ _ _ hh]
      simp [hh]

theorem runCalls_compile_count (qc : QuantumComputer) (h : Nat)
    (hname : strContainsSubstr qc.name "pyqvm" = false) :
    ∀ (calls : List RunCall) (st : QCDevState), st.parametric_compilation = true →
      countCompiles h (runCalls qc st calls).2 =
        (if (st.compiled_program_dict.lookup h).isSome then 0
         else if h ∈ calls.map RunCall.hash then 1 else 0)
  | [], st, _ => by
    rw [runCalls_nil]
    simp [countCompiles]
  | c :: rest, st, hpar => by
    rw [runCalls_cons]
    dsimp only
    rw [countCompiles_append, (doCall_spec qc st c hname hpar).2.2,
      countCompiles_append, countCompiles_append, countCompiles_writes, countCompiles_run,
      runCalls_compile_count qc h hname rest (doCall qc st c).1 (doCall_spec qc st c hname hpar).1,
      lookup_isSome_after_doCall qc st c h hname hpar]
    by_cases hh : h = c.hash
    · subst hh
      by_cases hhit : (st.compiled_program_dict.lookup c.hash).isSome
      · simp [hhit, countCompiles_nil]
      · simp [hhit, countCompiles_nil, countCompiles_compile]
    · by_cases hhit : (st.compiled_program_dict.lookup h).isSome
      · by_cases hhitc : (st.compiled_program_dict.lookup c.hash).isSome
        · simp [hhit, hhitc, countCompiles_nil]
        · simp [hhit, hhitc, countCompiles_nil, countCompiles_compile, Ne.symm hh]
      · by_cases hhitc : (st.compiled_program_dict.lookup c.hash).isSome
        · simp [hhit, hhitc, hh, countCompiles_nil]
        · simp [hhit, hhitc, countCompiles_nil, countCompiles_compile, Ne.symm hh, hh]

theorem nonWriteEvs_append (a b : List Ev) :
    nonWriteEvs (a ++ b) = nonWriteEvs a ++ nonWriteEvs b := by
  simp [nonWriteEvs, List.filter_append]

theorem nonWriteEvs_writes (params : List (String × List Int)) :
    nonWriteEvs (params.map fun rv => Ev.write rv.1 rv.2) = [] := by
  induction params with
  | nil => rfl
  | cons p rest ih => simpa [nonWriteEvs, List.filter_cons] using ih

theorem runCalls_structure_only (qc : QuantumComputer)
    (hname : strContainsSubstr qc.name "pyqvm" = false) :
    ∀ (calls calls' : List RunCall), sameStructure calls calls' →
      ∀ (st st' : QCDevState), st.parametric_compilation = true →
        st'.parametric_compilation = true →
        (∀ h, (st.compiled_program_dict.lookup h).isSome =
          (st'.compiled_program_dict.lookup h).isSome) →
        nonWriteEvs (runCalls qc st calls).2 = nonWriteEvs (runCalls qc st' calls').2 := by
  intro calls calls' hstruct
  induction hstruct with
  | nil =>
    intro st st' _ _ _
    rfl
  | @cons a b l₁ l₂ hab htail ih =>
    intro st st' hpar hpar' hdom
    rw [runCalls_cons, runCalls_cons]
    dsimp only
    rw [nonWriteEvs_append, nonWriteEvs_append]
    have e1 : nonWriteEvs (doCall qc st a).2 = nonWriteEvs (doCall qc st' b).2 := by
      rw [(doCall_spec qc st a hname hpar).2.2, (doCall_spec qc st' b hname hpar').2.2,
        nonWriteEvs_append, nonWriteEvs_append, nonWriteEvs_append, nonWriteEvs_append,
        nonWriteEvs_writes, nonWriteEvs_writes, hdom a.hash, hab.1]
    have e2 := ih (doCall qc st a).1 (doCall qc st' b).1
      (doCall_spec qc st a hname hpar).1 (doCall_spec qc st' b hname hpar').1
      (fun x => by
        rw [lookup_isSome_after_doCall qc st a x hname hpar,
          lookup_isSome_after_doCall qc st' b x hname hpar', hdom x, hab.1])
    rw [e1, e2]

/-- C1: for a device with parametric compilation enabled and a non-pyqvm
target machine, across any sequence of `generate_samples` calls over the
device's lifetime the external compile operation is invoked exactly once
for a circuit hash that occurs in the sequence and never otherwise — at
most once per fixed hash, compiled on the first miss, inserted into the
cache, and fetched from the cache on every later call; moreover a call
sequence differing only in the numeric parameter values pushed from the
binding table produces the identical compile/run event trace, so
rebinding parameters never triggers recompilation. -/
theorem compile_cache_at_most_once (qc : QuantumComputer) (h : Nat)
    (calls calls' : List RunCall)
    (hname : strContainsSubstr qc.name "pyqvm" = false)
    (hstruct : sameStructure calls calls') :
    countCompiles h (runCalls qc initialState calls).2 =
      (if h ∈ calls.map RunCall.hash then 1 else 0) ∧
    nonWriteEvs (runCalls qc initialState calls).2 =
      nonWriteEvs (runCalls qc initialState calls').2 := by
  constructor
  · have hc := runCalls_compile_count qc h hname calls initialState rfl
    simpa [initialState] using hc
  · exact runCalls_structure_only qc hname calls calls' hstruct initialState initialState
      rfl rfl (fun _ => rfl)

/-- Witness for C1: two calls with the same circuit hash and program
structure but different bound parameter values compile exactly once, and
replacing the numeric values leaves the compile/run trace unchanged. -/
theorem compile_cache_at_most_once_witness :
    countCompiles 5 (runCalls ⟨"3q-qvm", fun _ => 0⟩ initialState
      [⟨5, 1, [("theta1", [1])]⟩, ⟨5, 1, [("theta1", [2])]⟩]).2 =
      (if 5 ∈ ([⟨5, 1, [("theta1", [1])]⟩, ⟨5, 1, [("theta1", [2])]⟩] :
        List RunCall).map RunCall.hash then 1 else 0) ∧
    nonWriteEvs (runCalls ⟨"3q-qvm", fun _ => 0⟩ initialState
      [⟨5, 1, [("theta1", [1])]⟩, ⟨5, 1, [("theta1", [2])]⟩]).2 =
      nonWriteEvs (runCalls ⟨"3q-qvm", fun _ => 0⟩ initialState
      [⟨5, 1, [("theta1", [3])]⟩, ⟨5, 1, [("theta1", [4])]⟩]).2 :=
  compile_cache_at_most_once ⟨"3q-qvm", fun _ => 0⟩ 5
    [⟨5, 1, [("theta1", [1])]⟩, ⟨5, 1, [("theta1", [2])]⟩]
    [⟨5, 1, [("theta1", [3])]⟩, ⟨5, 1, [("theta1", [4])]⟩]
    (by decide)
    (List.Forall₂.cons ⟨rfl, rfl⟩ (List.Forall₂.cons ⟨rfl, rfl⟩ List.Forall₂.nil))

/-! ### Bit-index lemmas for the contraction engine (C3) -/

theorem flatIdx_succ (n : Nat) (b : Nat → Bool) :
    flatIdx (n + 1) b = 2 * flatIdx n b + (if b n then 1 else 0) := by
  unfold flatIdx
  rw [Finset.sum_range_succ, Finset.mul_sum]
  congr 1
  · refine Finset.sum_congr rfl (fun i hi => ?_)
    have hi' := Finset.mem_range.mp hi
    have he : n + 1 - 1 - i = (n - 1 - i) + 1 := by omega
    rw [he, pow_succ]
    by_cases hb : b i <;> simp [hb] <;> ring
  · simp

theorem flatIdx_lt (n : Nat) (b : Nat → Bool) : flatIdx n b < 2 ^ n := by
  induction n with
  | zero => simp [flatIdx]
  | succ k ih =>
    rw [flatIdx_succ, pow_succ]
    by_cases hb : b k <;> simp [hb] <;> omega

theorem flatIdx_congr (n : Nat) (b b' : Nat → Bool) (h : ∀ i, i < n → b i = b' i) :
    flatIdx n b = flatIdx n b' :=
  Finset.sum_congr rfl (fun i hi => by rw [h i (Finset.mem_range.mp hi)])

theorem bitIdx_cast (n m i : Nat) (hi : i < n) : bitIdx (n + 1) m i = bitIdx n (m / 2) i := by
  unfold bitIdx
  have he : n + 1 - 1 - i = (n - 1 - i) + 1 := by omega
  rw [he, pow_succ, mul_comm, ← Nat.div_div_eq_div_mul]

theorem bitIdx_last (n m : Nat) : bitIdx (n + 1) m n = decide (m % 2 = 1) := by
  unfold bitIdx
  simp

theorem bitIdx_flatIdx (n : Nat) (b : Nat → Bool) :
    ∀ i, i < n → bitIdx n (flatIdx n b) i = b i := by
  induction n with
  | zero => intro i hi; omega
  | succ k ih =>
    intro i hi
    rw [flatIdx_succ]
    rcases Nat.lt_succ_iff_lt_or_eq.mp hi with hik | hik
    · rw [bitIdx_cast _ _ _ hik]
      have hdiv : (2 * flatIdx k b + (if b k then 1 else 0)) / 2 = flatIdx k b := by
        by_cases hb : b k <;> simp [hb] <;> omega
      rw [hdiv]
      exact ih i hik
    · subst hik
      rw [bitIdx_last]
      by_cases hb : b i <;> simp [hb] <;> omega

theorem flatIdx_bitIdx (n : Nat) :
    ∀ m, m < 2 ^ n → flatIdx n (fun i => bitIdx n m i) = m := by
  induction n with
  | zero =>
    intro m hm
    interval_cases m
    simp [flatIdx]
  | succ k ih =>
    intro m hm
    rw [flatIdx_succ]
    have h1 : flatIdx k (fun i => bitIdx (k + 1) m i) = flatIdx k (fun i => bitIdx k (m / 2) i) :=
      flatIdx_congr _ _ _ (fun i hi => bitIdx_cast k m i hi)
    have h2 : m / 2 < 2 ^ k := by
      rw [pow_succ] at hm
      omega
    rw [h1, ih (m / 2) h2, bitIdx_last]
    rcases Nat.mod_two_eq_zero_or_one m with hp | hp <;> simp [hp] <;> omega

theorem indexOf_map_of_injOn {α β : Type} [DecidableEq α] [DecidableEq β] (f : α → β) :
    ∀ (l : List α) (a : α), (∀ x ∈ l, f x = f a → x = a) →
      (l.map f).indexOf (f a) = l.indexOf a
  | [], _, _ => rfl
  | x :: xs, a, hinj => by
    by_cases hx : x = a
    · subst hx
      simp [List.indexOf_cons_self]
    · have hfx : f x ≠ f a := fun hcontra => hx (hinj x (by simp) hcontra)
      rw [List.map_cons, List.indexOf_cons_ne _ hfx, List.indexOf_cons_ne _ hx,
        indexOf_map_of_injOn f xs a (fun y hy => hinj y (by simp [hy]))]

theorem getD_append_left (l₁ l₂ : List Nat) (i : Nat) (h : i < l₁.length) :
    (l₁ ++ l₂).getD i 0 = l₁.getD i 0 := by
  rw [List.getD_eq_getElem _ _ (by simp; omega), List.getD_eq_getElem _ _ h]
  exact List.getElem_append_left h

theorem getD_append_right (l₁ l₂ : List Nat) (i : Nat) (h : i < l₂.length) :
    (l₁ ++ l₂).getD (l₁.length + i) 0 = l₂.getD i 0 := by
  rw [List.getD_eq_getElem _ _ (by simp; omega), List.getD_eq_getElem _ _ h]
  simp [List.getElem_append_right]

theorem getD_indexOf (l : List Nat) (a : Nat) (h : a ∈ l) : l.getD (l.indexOf a) 0 = a := by
  rw [List.getD_eq_getElem _ _ (List.indexOf_lt_length.mpr h)]
  exact List.getElem_indexOf (List.indexOf_lt_length.mpr h)

theorem argsort_eq (p : List Nat) (hp : List.Perm p (List.range p.length)) :
    argsort p = (List.range p.length).map (fun v => p.indexOf v) := by
  have hnodup : p.Nodup := hp.nodup_iff.mpr (List.nodup_range _)
  have hmem : ∀ v, v < p.length → v ∈ p := fun v hv =>
    hp.mem_iff.mpr (List.mem_range.mpr hv)
  have hkeyinj : ∀ i j, i < p.length → j < p.length → p.getD i 0 = p.getD j 0 → i = j := by
    intro i j hi hj hkey
    rw [List.getD_eq_getElem _ _ hi, List.getD_eq_getElem _ _ hj] at hkey
    have := List.nodup_iff_injective_get.mp hnodup
      (show p.get ⟨i, hi⟩ = p.get ⟨j, hj⟩ by simpa [List.get_eq_getElem] using hkey)
    simpa using congrArg Fin.val this
  have hkeyf : ∀ v, v < p.length → p.getD (p.indexOf v) 0 = v := fun v hv =>
    getD_indexOf p v (hmem v hv)
  have hfinj : ∀ x, x < p.length → ∀ y, y < p.length → p.indexOf x = p.indexOf y → x = y := by
    intro x hx y hy hxy
    exact (List.indexOf_inj (hmem x hx) (hmem y hy)).mp hxy
  have hsort_perm : List.Perm (argsort p) (List.range p.length) :=
    List.perm_insertionSort _ _
  have htnodup : ((List.range p.length).map (fun v => p.indexOf v)).Nodup :=
    (List.nodup_range _).map_on
      (fun x hx y hy => hfinj x (List.mem_range.mp hx) y (List.mem_range.mp hy))
  have htmem : ∀ x, x ∈ (List.range p.length).map (fun v => p.indexOf v) ↔ x < p.length := by
    intro x
    constructor
    · intro hx
      obtain ⟨v, hv, hfv⟩ := List.mem_map.mp hx
      rw [← hfv]
      exact List.indexOf_lt_length.mpr (hmem v (List.mem_range.mp hv))
    · intro hx
      refine List.mem_map.mpr ⟨p.getD x 0, ?_, ?_⟩
      · rw [List.getD_eq_getElem _ _ hx]
        exact List.mem_range.mpr (List.mem_range.mp (hp.mem_iff.mp (List.getElem_mem hx)))
      · rw [List.getD_eq_getElem _ _ hx]
        have := List.get_indexOf hnodup ⟨x, hx⟩
        simpa [List.get_eq_getElem] using this
  have ht_perm : List.Perm ((List.range p.length).map (fun v => p.indexOf v))
      (List.range p.length) := by
    refine List.perm_of_nodup_nodup_toFinset_eq htnodup (List.nodup_range _) ?_
    ext x
    simp only [List.mem_toFinset, List.mem_range]
    exact htmem x
  have hst : List.Perm (argsort p) ((List.range p.length).map (fun v => p.indexOf v)) :=
    hsort_perm.trans ht_perm.symm
  have hssub : ∀ x ∈ argsort p, x < p.length := fun x hx =>
    List.mem_range.mp (hsort_perm.mem_iff.mp hx)
  have hs_sorted : List.Sorted (fun i j => p.getD i 0 ≤ p.getD j 0) (argsort p) := by
    haveI : IsTotal Nat (fun i j => p.getD i 0 ≤ p.getD j 0) :=
      ⟨fun a b => Nat.le_total _ _⟩
    haveI : IsTrans Nat (fun i j => p.getD i 0 ≤ p.getD j 0) :=
      ⟨fun a b c hab hbc => Nat.le_trans hab hbc⟩
    exact List.sorted_insertionSort _ _
  have hs_strict : List.Sorted (fun i j => p.getD i 0 < p.getD j 0) (argsort p) := by
    have hsnodup : (argsort p).Nodup := hsort_perm.nodup_iff.mpr (List.nodup_range _)
    refine List.Pairwise.imp_of_mem ?_ (hs_sorted.and hsnodup)
    intro a b ha hb hab
    exact lt_of_le_of_ne hab.1
      (fun hk => hab.2 (hkeyinj a b (hssub a ha) (hssub b hb) hk))
  have ht_strict : List.Sorted (fun i j => p.getD i 0 < p.getD j 0)
      ((List.range p.length).map (fun v => p.indexOf v)) := by
    rw [List.Sorted, List.pairwise_map]
    refine List.Pairwise.imp_of_mem ?_ (List.pairwise_lt_range p.length)
    intro a b ha hb hab
    rw [hkeyf a (List.mem_range.mp ha), hkeyf b (List.mem_range.mp hb)]
    exact hab
  haveI : IsAntisymm Nat (fun i j => p.getD i 0 < p.getD j 0) :=
    ⟨fun a b h1 h2 => absurd (Nat.lt_trans h1 h2) (Nat.lt_irrefl _)⟩
  exact List.eq_of_perm_of_sorted hst hs_strict ht_strict

theorem argsort_indexOf (p : List Nat) (hp : List.Perm p (List.range p.length))
    (a : Nat) (ha : a < p.length) : (argsort p).indexOf a = p.getD a 0 := by
  have hnodup : p.Nodup := hp.nodup_iff.mpr (List.nodup_range _)
  have hmem : ∀ v, v < p.length → v ∈ p := fun v hv =>
    hp.mem_iff.mpr (List.mem_range.mpr hv)
  rw [argsort_eq p hp]
  have hv0lt : p.getD a 0 < p.length := by
    rw [List.getD_eq_getElem _ _ ha]
    exact List.mem_range.mp (hp.mem_iff.mp (List.getElem_mem ha))
  have haf : p.indexOf (p.getD a 0) = a := by
    rw [List.getD_eq_getElem _ _ ha]
    have := List.get_indexOf hnodup ⟨a, ha⟩
    simpa [List.get_eq_getElem] using this
  have hrange_idx : (List.range p.length).indexOf (p.getD a 0) = p.getD a 0 := by
    have := List.get_indexOf (List.nodup_range p.length)
      ⟨p.getD a 0, by simpa using hv0lt⟩
    simp only [List.get_eq_getElem, List.getElem_range] at this
    simpa using this
  calc ((List.range p.length).map (fun v => p.indexOf v)).indexOf a
      = ((List.range p.length).map (fun v => p.indexOf v)).indexOf
          (p.indexOf (p.getD a 0)) := by rw [haf]
    _ = (List.range p.length).indexOf (p.getD a 0) := by
        refine indexOf_map_of_injOn (fun v => p.indexOf v) (List.range p.length)
          (p.getD a 0) ?_
        intro x hx hfx
        exact (List.indexOf_inj (hmem x (List.mem_range.mp hx)) (hmem _ hv0lt)).mp hfx
    _ = p.getD a 0 := hrange_idx

theorem targets_perm (n : Nat) (wls : List Nat) (hnd : wls.Nodup)
    (hlt : ∀ q ∈ wls, q < n) :
    List.Perm (wls ++ (List.range n).filter (fun q => decide (q ∉ wls)))
      (List.range n) := by
  refine List.perm_of_nodup_nodup_toFinset_eq ?_ (List.nodup_range n) ?_
  · rw [List.nodup_append]
    refine ⟨hnd, (List.nodup_range n).filter _, ?_⟩
    intro q hq hq'
    have := List.of_mem_filter hq'
    simp at this
    exact this hq
  · ext q
    simp only [List.toFinset_append, Finset.mem_union, List.mem_toFinset, List.mem_filter,
      List.mem_range, decide_eq_true_eq]
    constructor
    · rintro (hq | ⟨hq, -⟩)
      · exact hlt q hq
      · exact hq
    · intro hq
      by_cases hmem : q ∈ wls
      · exact Or.inl hmem
      · exact Or.inr ⟨hq, hmem⟩

set_option maxHeartbeats 1000000 in
/-- On well-formed inputs (matching shape, duplicate-free in-range target
qubits, arbitrary order), the reshape/tensordot/argsort/transpose
pipeline of `mat_vec_product` computes precisely the standard application
of the operator to the target subsystems: entry `m` of the result sums
`mat[bits of m at the targets, r] * vec[m with its target bits replaced
by the bits of r]` over `r`. -/
theorem mat_vec_product_ok {R : Type} [CommRing R] (n : Nat) (mat : NpMatrix R)
    (vec : Nat → R) (wls : List Nat)
    (hrows : mat.rows = 2 ^ wls.length) (hcols : mat.cols = 2 ^ wls.length)
    (hnd : wls.Nodup) (hlt : ∀ q ∈ wls, q < n) :
    mat_vec_product n mat vec wls =
      .ok (fun m => ∑ r ∈ Finset.range (2 ^ wls.length),
        mat.entry (subIdx n wls m) r * vec (overrideIdx n wls m r)) := by
  have hperm : List.Perm (wls ++ (List.range n).filter (fun q => decide (q ∉ wls)))
      (List.range n) := targets_perm n wls hnd hlt
  have hplen : (wls ++ (List.range n).filter (fun q => decide (q ∉ wls))).length = n := by
    simpa using hperm.length_eq
  unfold mat_vec_product
  rw [if_neg (by simp [hrows, hcols])]
  dsimp only
  refine congrArg Except.ok (funext fun m => ?_)
  refine Finset.sum_congr rfl (fun r hr => ?_)
  have hrlt : r < 2 ^ wls.length := Finset.mem_range.mp hr
  have hklen : wls.length + ((List.range n).filter (fun q => decide (q ∉ wls))).length = n := by
    simpa using hplen
  have hperm' : List.Perm (wls ++ (List.range n).filter (fun q => decide (q ∉ wls)))
      (List.range (wls ++ (List.range n).filter (fun q => decide (q ∉ wls))).length) := by
    rw [hplen]
    exact hperm
  have hidx : ∀ a, a < n →
      (argsort (wls ++ (List.range n).filter (fun q => decide (q ∉ wls)))).indexOf a =
        (wls ++ (List.range n).filter (fun q => decide (q ∉ wls))).getD a 0 := by
    intro a ha
    refine argsort_indexOf _ hperm' a ?_
    rw [hplen]
    exact ha
  refine congrArg₂ (· * ·) (congrArg₂ mat.entry ?_ ?_) (congrArg vec ?_)
  · unfold subIdx
    refine flatIdx_congr _ _ _ (fun a ha => ?_)
    dsimp only
    rw [if_pos ha, hidx a (by omega), getD_append_left wls _ a ha]
  · refine Eq.trans (flatIdx_congr _ _ _ (fun i hi => ?_)) (flatIdx_bitIdx wls.length r hrlt)
    rw [if_neg (by omega)]
    congr 1
    omega
  · unfold overrideIdx
    refine flatIdx_congr _ _ _ (fun q hq => ?_)
    by_cases hmem : q ∈ wls
    · rw [if_pos hmem, if_pos hmem]
    · rw [if_neg hmem, if_neg hmem]
      dsimp only
      have hqu : q ∈ (List.range n).filter (fun idx => decide (idx ∉ wls)) := by
        simp [List.mem_filter, hq, hmem]
      have hlidx := List.indexOf_lt_length.mpr hqu
      rw [hidx (wls.length + ((List.range n).filter (fun idx => decide (idx ∉ wls))).indexOf q)
        (by omega), getD_append_right wls _ _ hlidx, getD_indexOf _ q hqu]

theorem subIdx_lt (n : Nat) (wls : List Nat) (m : Nat) :
    subIdx n wls m < 2 ^ wls.length := flatIdx_lt _ _

theorem subIdx_overrideIdx (n : Nat) (wls : List Nat) (hnd : wls.Nodup)
    (hlt : ∀ q ∈ wls, q < n) (m r : Nat) (hr : r < 2 ^ wls.length) :
    subIdx n wls (overrideIdx n wls m r) = r := by
  unfold subIdx overrideIdx
  have h1 : ∀ i, i < wls.length →
      bitIdx n (flatIdx n fun q => if q ∈ wls then bitIdx wls.length r (wls.indexOf q)
        else bitIdx n m q) (wls.getD i 0) = bitIdx wls.length r i := by
    intro i hi
    have hwi : wls.getD i 0 ∈ wls := by
      rw [List.getD_eq_getElem _ _ hi]
      exact List.getElem_mem hi
    rw [bitIdx_flatIdx n _ _ (hlt _ hwi), if_pos hwi]
    congr 1
    rw [List.getD_eq_getElem _ _ hi]
    have := List.get_indexOf hnd ⟨i, hi⟩
    simpa [List.get_eq_getElem] using this
  rw [flatIdx_congr _ _ _ h1]
  exact flatIdx_bitIdx _ r hr

theorem overrideIdx_overrideIdx (n : Nat) (wls : List Nat)
    (m r s : Nat) :
    overrideIdx n wls (overrideIdx n wls m r) s = overrideIdx n wls m s := by
  unfold overrideIdx
  refine flatIdx_congr _ _ _ (fun q hq => ?_)
  by_cases hmem : q ∈ wls
  · rw [if_pos hmem, if_pos hmem]
  · rw [if_neg hmem, if_neg hmem, bitIdx_flatIdx n _ _ hq, if_neg hmem]

theorem overrideIdx_subIdx_self (n : Nat) (wls : List Nat) (m : Nat) (hm : m < 2 ^ n) :
    overrideIdx n wls m (subIdx n wls m) = m := by
  unfold overrideIdx subIdx
  have h1 : ∀ q, q < n →
      (if q ∈ wls then
        bitIdx wls.length (flatIdx wls.length fun i => bitIdx n m (wls.getD i 0))
          (wls.indexOf q)
      else bitIdx n m q) = bitIdx n m q := by
    intro q hq
    by_cases hmem : q ∈ wls
    · rw [if_pos hmem, bitIdx_flatIdx _ _ _ (List.indexOf_lt_length.mpr hmem),
        getD_indexOf wls q hmem]
    · rw [if_neg hmem]
  rw [flatIdx_congr _ _ _ h1]
  exact flatIdx_bitIdx n m hm

/-- C3: for every length-`2 ^ n` state vector, every invertible
`2 ^ k x 2 ^ k` matrix `M` with inverse `Minv`, and every ordered subset
of `k` distinct target qubits — including subsets given in arbitrary,
non-sorted order — applying `M` and then `Minv` via `mat_vec_product`
returns the original state vector: the permutation built as the target
qubits followed by the untouched qubits in ascending order, inverted via
`argsort`, restores canonical physical-qubit axis order. -/
theorem contraction_round_trip {R : Type} [CommRing R] (n : Nat) (M Minv : NpMatrix R)
    (vec : Nat → R) (wls : List Nat)
    (hnd : wls.Nodup) (hlt : ∀ q ∈ wls, q < n)
    (hMr : M.rows = 2 ^ wls.length) (hMc : M.cols = 2 ^ wls.length)
    (hIr : Minv.rows = 2 ^ wls.length) (hIc : Minv.cols = 2 ^ wls.length)
    (hinv : ∀ a, a < 2 ^ wls.length → ∀ b, b < 2 ^ wls.length →
      (∑ c ∈ Finset.range (2 ^ wls.length), Minv.entry a c * M.entry c b) =
        if a = b then 1 else 0) :
    ∃ f g, mat_vec_product n M vec wls = .ok f ∧ mat_vec_product n Minv f wls = .ok g ∧
      ∀ m, m < 2 ^ n → g m = vec m := by
  refine ⟨_, _, mat_vec_product_ok n M vec wls hMr hMc hnd hlt,
    mat_vec_product_ok n Minv _ wls hIr hIc hnd hlt, ?_⟩
  intro m hm
  calc ∑ r ∈ Finset.range (2 ^ wls.length),
        Minv.entry (subIdx n wls m) r *
          ∑ c ∈ Finset.range (2 ^ wls.length),
            M.entry (subIdx n wls (overrideIdx n wls m r)) c *
              vec (overrideIdx n wls (overrideIdx n wls m r) c)
      = ∑ r ∈ Finset.range (2 ^ wls.length),
          ∑ c ∈ Finset.range (2 ^ wls.length),
            Minv.entry (subIdx n wls m) r * M.entry r c * vec (overrideIdx n wls m c) := by
        refine Finset.sum_congr rfl (fun r hr => ?_)
        rw [Finset.mul_sum]
        refine Finset.sum_congr rfl (fun c hc => ?_)
        rw [subIdx_overrideIdx n wls hnd hlt m r (Finset.mem_range.mp hr),
          overrideIdx_overrideIdx, mul_assoc]
    _ = ∑ c ∈ Finset.range (2 ^ wls.length),
          (∑ r ∈ Finset.range (2 ^ wls.length),
            Minv.entry (subIdx n wls m) r * M.entry r c) * vec (overrideIdx n wls m c) := by
        rw [Finset.sum_comm]
        refine Finset.sum_congr rfl (fun c hc => ?_)
        rw [Finset.sum_mul]
    _ = ∑ c ∈ Finset.range (2 ^ wls.length),
          (if subIdx n wls m = c then 1 else 0) * vec (overrideIdx n wls m c) := by
        refine Finset.sum_congr rfl (fun c hc => ?_)
        rw [hinv _ (subIdx_lt n wls m) c (Finset.mem_range.mp hc)]
    _ = vec (overrideIdx n wls m (subIdx n wls m)) := by
        simp only [ite_mul, one_mul, zero_mul]
        rw [Finset.sum_ite_eq, if_pos (Finset.mem_range.mpr (subIdx_lt n wls m))]
    _ = vec m := by
        rw [overrideIdx_subIdx_self n wls m hm]

/-- Witness for C3: on two qubits with the targets given in the
non-sorted order `[1, 0]`, applying the self-inverse anti-diagonal 4x4
matrix twice recovers the original state vector. -/
theorem contraction_round_trip_witness :
    ∃ f g, mat_vec_product (R := Int) 2 ⟨4, 4, fun i j => if i + j = 3 then 1 else 0⟩
        (fun m => (m : Int)) [1, 0] = .ok f ∧
      mat_vec_product (R := Int) 2 ⟨4, 4, fun i j => if i + j = 3 then 1 else 0⟩
        f [1, 0] = .ok g ∧
      ∀ m, m < 2 ^ 2 → g m = (m : Int) :=
  contraction_round_trip 2 ⟨4, 4, fun i j => if i + j = 3 then 1 else 0⟩
    ⟨4, 4, fun i j => if i + j = 3 then 1 else 0⟩ (fun m => (m : Int)) [1, 0]
    (by decide) (by decide) (by decide) (by decide) (by decide) (by decide) (by decide)
